import Mathlib

/-!
A verification development for the multiway equijoin planner and delta-query
builder (`interactive/src/plan/sfw.rs`): the plan data model, the attribute
planner, the join-order planner, the key/value resolver, and an executable
model of the delta-query dataflow that `MultiwayJoin::render` constructs.

Pure planning functions are translated directly from the source.  Runtime
capabilities that the source consumes from the surrounding dataflow libraries
(plan rendering, arrangements/traces, the alt/neu timestamp refinement, the
lookup-extend operator) are modelled from the specification, with their doc
comments saying so.
-/

set_option maxRecDepth 10000

/-- A tuple of values; the value type is specialized to `Nat`. -/
abbrev Tuple := List Nat

/-- A collection's contents: tuples with signed multiplicities. -/
abbrev Coll := List (Tuple × Int)

/-- Signed multiplicity of a tuple in a collection. -/
def relCount (r : Coll) (tu : Tuple) : Int :=
  (r.map (fun p => if p.1 = tu then p.2 else 0)).foldl (· + ·) 0

/-- Rust's indexing `t[i]`, with `none` standing for the out-of-bounds panic. -/
def nth : List α → Nat → Option α
  | [], _ => none
  | a :: _, 0 => some a
  | _ :: t, i + 1 => nth t i

/-- Applies the fallible `f` to every element; `none` if any call fails. -/
def mapOpt (f : α → Option β) : List α → Option (List β)
  | [] => some []
  | a :: t =>
    match f a, mapOpt f t with
    | some b, some bs => some (b :: bs)
    | _, _ => none

/-- Concatenation of a list of lists. -/
def flat : List (List α) → List α
  | [] => []
  | a :: t => a ++ flat t

/-- Rust's `Vec::contains`, as a `Bool`. -/
def has [DecidableEq α] (l : List α) (x : α) : Bool :=
  match l with
  | [] => false
  | a :: t => if a = x then true else has t x

/-- Rust's `Iterator::position`: index of the first element satisfying `p`. -/
def listPosition (p : α → Bool) : List α → Option Nat
  | [] => none
  | a :: t => if p a then some 0 else (listPosition p t).map (· + 1)

/-! ## Plan data model -/

/--
The `MultiwayJoin` plan (`sfw.rs` lines 42-54).  `results` is the output
projection as `(attribute index, input index)` pairs, `equalities` the list of
equivalence classes of such pairs.  Modelled from the spec: `sources` is a list
of sub-plans each rendering to a collection of tuples; here the sub-plans are
base relations identified by position, so the field records their number and
their contents are supplied separately by an environment.
-/
structure MultiwayJoin where
  results : List (Nat × Nat)
  sources : Nat
  equalities : List (List (Nat × Nat))

/-! ## Attribute planner (`render`, lines 70-74) -/

/-- The order in which Rust's derived `Ord` sorts `(usize, usize)` pairs: lexicographic. -/
def pairLe (a b : Nat × Nat) : Prop :=
  a.1 < b.1 ∨ (a.1 = b.1 ∧ a.2 ≤ b.2)

instance : DecidableRel pairLe := fun a b => by
  unfold pairLe; infer_instance

instance : IsTotal (Nat × Nat) pairLe where
  total a b := by
    rcases Nat.lt_trichotomy a.1 b.1 with h | h | h
    · exact Or.inl (Or.inl h)
    · rcases Nat.le_total a.2 b.2 with h2 | h2
      · exact Or.inl (Or.inr ⟨h, h2⟩)
      · exact Or.inr (Or.inr ⟨h.symm, h2⟩)
    · exact Or.inr (Or.inl h)

instance : IsTrans (Nat × Nat) pairLe where
  trans a b c hab hbc := by
    rcases hab with h | ⟨h1, h2⟩
    · rcases hbc with h' | ⟨h1', _⟩
      · exact Or.inl (h.trans h')
      · exact Or.inl (h1' ▸ h)
    · rcases hbc with h' | ⟨h1', h2'⟩
      · exact Or.inl (h1 ▸ h')
      · exact Or.inr ⟨h1.trans h1', h2.trans h2'⟩

/-- Rust's `Vec::dedup` (drop the later elements of each run of consecutive equals):
the inner loop, keeping `prev` as the last retained element. -/
def dedupGo [DecidableEq α] (prev : α) : List α → List α
  | [] => []
  | b :: t => if prev = b then dedupGo prev t else b :: dedupGo b t

/-- Rust's `Vec::dedup`. -/
def rustDedup [DecidableEq α] : List α → List α
  | [] => []
  | a :: t => a :: dedupGo a t

/--
The list `relevant_attributes` (`render`, lines 70-74): all attributes referenced by
`results` or by any equality constraint, sorted and deduplicated.  Rust's
stable sort on a linearly ordered element type is extensionally any sort, so
insertion sort embeds it faithfully.
-/
def relevant_attributes (q : MultiwayJoin) : List (Nat × Nat) :=
  rustDedup (List.insertionSort pairLe (q.results ++ flat q.equalities))

/-! ## Join-order planner (`plan_join_order`, lines 228-249) -/

/-- The inner loop of `plan_join_order`: sequence every not-yet-sequenced relation
mentioned by `constraint`, in constraint order. -/
def addUnseen (res : List Nat) (constraint : List (Nat × Nat)) : List Nat :=
  constraint.foldl (fun r p => if has r p.2 then r else r ++ [p.2]) res

/-- One full scan over the constraints (the body of `plan_join_order`'s `while`):
any constraint mentioning a sequenced relation has all its relations sequenced. -/
def scanOnce (constraints : List (List (Nat × Nat))) (res : List Nat) : List Nat :=
  constraints.foldl
    (fun r c => if c.any (fun p => has r p.2) then addUnseen r c else r) res

/-- The `while active` loop of `plan_join_order`, with explicit fuel; the fuel
is shown sufficient below (`scanOnce_planJoinOrder`), so this embeds the
unbounded loop faithfully. -/
def joinLoop (constraints : List (List (Nat × Nat))) : Nat → List Nat → List Nat
  | 0, res => res
  | fuel + 1, res =>
    let res' := scanOnce constraints res
    if res' = res then res else joinLoop constraints fuel res'

/-- The function `plan_join_order` (lines 228-249): sequences relations reachable
from `source` through shared equality constraints, `source` first. -/
def plan_join_order (source : Nat) (constraints : List (List (Nat × Nat))) : List Nat :=
  joinLoop constraints ((flat constraints).length + 1) [source]

/-! ## Key/value resolver (`determine_keys_priors`, lines 254-283) -/

/--
The function `determine_keys_priors` (lines 254-283): for every constraint intersecting
`current_attributes` at position `prior`, every attribute of `relation` in that
constraint becomes a key paired with that `prior`.
-/
def determine_keys_priors (relation : Nat) (constraints : List (List (Nat × Nat)))
    (current_attributes : List (Nat × Nat)) : List Nat × List Nat :=
  constraints.foldl
    (fun kp c =>
      match listPosition (fun x => has c x) current_attributes with
      | some prior =>
        c.foldl (fun kp2 p =>
          if p.2 = relation then (kp2.1 ++ [p.1], kp2.2 ++ [prior]) else kp2) kp
      | none => kp)
    ([], [])

/-! ## Delta-query builder: the per-branch join plan (`render`, lines 80-176) -/

/--
One recorded join step (`join_plan.push((join_idx, key_selector, arrangement))`,
line 173), together with the planning data the step was built from: the join
keys and priors, the carried value attributes, and the column projection
`keys ++ vals` used for the step's keyed arrangement.
-/
structure JoinStep where
  joinIdx : Nat
  keys : List Nat
  priors : List Nat
  vals : List (Nat × Nat)
  projection : List Nat
  deriving DecidableEq, Repr

/--
The loop over `join_order.skip(1)` (`render`, lines 120-176): for each relation
to fold in, resolve keys/priors against the accumulated `attributes`, compute
`vals` (relevant attributes of the relation not chosen as keys, line 131-136),
build the projection `keys ++ vals` (lines 138-144), and extend `attributes`
with `vals` (line 175).  Returns the recorded steps and the final `attributes`.
-/
def buildSteps (equalities : List (List (Nat × Nat))) (relevant : List (Nat × Nat)) :
    List Nat → List (Nat × Nat) → List JoinStep × List (Nat × Nat)
  | [], attributes => ([], attributes)
  | join_idx :: rest, attributes =>
    let kp := determine_keys_priors join_idx equalities attributes
    let vals := relevant.filter (fun p => p.2 = join_idx && !(has kp.1 p.1))
    let projection := kp.1 ++ vals.map Prod.fst
    let next := buildSteps equalities relevant rest (attributes ++ vals)
    (⟨join_idx, kp.1, kp.2, vals, projection⟩ :: next.1, next.2)

/-- The attributes retained for branch `index`: `relevant_attributes` restricted
to input `index` (`render`, lines 83-88). -/
def attributesInit (q : MultiwayJoin) (index : Nat) : List (Nat × Nat) :=
  (relevant_attributes q).filter (fun p => p.2 = index)

/-- Branch `index`'s join plan and final accumulated attribute list
(`render`, lines 83-176). -/
def branchPlan (q : MultiwayJoin) (index : Nat) : List JoinStep × List (Nat × Nat) :=
  buildSteps q.equalities (relevant_attributes q)
    ((plan_join_order index q.equalities).drop 1) (attributesInit q index)

/-- The recorded join steps of branch `index`. -/
def stepsOf (q : MultiwayJoin) (index : Nat) : List JoinStep :=
  (branchPlan q index).1

/--
The `extract_map` of branch `index` (`render`, lines 206-210): the position in
the final `attributes` of each result attribute; `none` models the
`expect("Output attribute not found!")` panic.
-/
def extractMapOf (q : MultiwayJoin) (index : Nat) : Option (List Nat) :=
  mapOpt (fun x => listPosition (fun y => y = x) (branchPlan q index).2) q.results

/-! ## Executable model of the rendered dataflow

Modelled from the spec: the underlying runtime (collections, arrangements,
nested alt/neu scopes, the lookup-extend operator `propose`) lives outside
`sfw.rs`; the definitions below give it the semantics the spec describes and
evaluate one outer timestamp at a time.
-/

/-- Modelled from the spec: the base relations' change streams.  `env i t` is
the batch of changes source `i` receives at outer timestamp `t`. -/
abbrev Env := Nat → Nat → Coll

/-- Modelled from the spec: the contents of source `j`'s trace accumulated at
timestamps `≤ t` (what an `alt`-tagged arrangement shows a change at `alt t`). -/
def accumUpTo (env : Env) (j t : Nat) : Coll :=
  flat ((List.range (t + 1)).map (env j))

/-- Modelled from the spec: the contents of source `j`'s trace accumulated at
timestamps `< t` (what a `neu`-tagged arrangement shows a change at `alt t`):
`neu t' ≤ alt t` exactly when `t' < t`. -/
def accumBefore (env : Env) (j t : Nat) : Coll :=
  flat ((List.range t).map (env j))

/-- Projection of a tuple onto a column list; `none` is the `tuple[i]` panic. -/
def projectTuple (cols : List Nat) (tu : Tuple) : Option Tuple :=
  mapOpt (nth tu) cols

/-- Projection of every tuple of a collection onto a column list. -/
def projectColl (cols : List Nat) (r : Coll) : Option Coll :=
  mapOpt (fun p => do pure ((← projectTuple cols p.1), p.2)) r

/--
The keyed arrangement built for a join step (`render`, lines 152-162): each
tuple of the step's relation is restricted to the columns `projection`
(= `keys ++ vals`), and the arrangement key is extracted from that *projected*
tuple at positions `keys` (`tuple[i]` for `i` in `keys`, line 158).  Entries
are `(key, projected tuple, multiplicity)`.
-/
def arrangementEntries (s : JoinStep) (visible : Coll) :
    Option (List (Tuple × Tuple × Int)) :=
  mapOpt (fun p => do
    let proj ← projectTuple s.projection p.1
    let key ← projectTuple s.keys proj
    pure (key, proj, p.2)) visible

/--
Modelled from the spec: `dogsdogsdogs::operators::propose` is a lookup-extend:
for each prefix in the stream, extract the probe key (the `priors` positions of
the prefix, the `key_selector` of line 169), and for every arrangement entry
with that key emit the prefix extended by the entry's stored tuple
(`prefix.extend(extensions)`, line 202), multiplying multiplicities.
-/
def propose (stream : Coll) (arr : List (Tuple × Tuple × Int)) (priors : List Nat) :
    Option Coll :=
  (mapOpt (fun p => do
    let key ← projectTuple priors p.1
    pure ((arr.filter (fun e => e.1 = key)).map (fun e => (p.1 ++ e.2.1, p.2 * e.2.2))))
    stream).map flat

/--
One join step of the delta branch for source `index` at outer timestamp `t`
(`render`, lines 187-203): relations with a smaller index are imported with the
`alt` timestamp (their changes at `t` are visible), the rest with `neu` (their
changes at `t` are not yet visible).
-/
def applyStep (env : Env) (t index : Nat) (stream : Option Coll) (s : JoinStep) :
    Option Coll := do
  let st ← stream
  let visible :=
    if s.joinIdx < index then accumUpTo env s.joinIdx t else accumBefore env s.joinIdx t
  let arr ← arrangementEntries s visible
  propose st arr s.priors

/-- Branch `index`'s change stream at timestamp `t` before any join step
(`render`, lines 97-105): source `index`'s changes projected onto its retained
attributes. -/
def initialChanges (q : MultiwayJoin) (env : Env) (t index : Nat) : Option Coll :=
  projectColl ((attributesInit q index).map Prod.fst) (env index t)

/-- The branch stream after the first `k` join steps. -/
def streamAfter (q : MultiwayJoin) (env : Env) (t index k : Nat) : Option Coll :=
  ((stepsOf q index).take k).foldl (applyStep env t index)
    (initialChanges q env t index)

/-- Branch `index`'s contribution to the output at timestamp `t`
(`render`, lines 92-215): fold the join steps over the change stream, then
project through `extract_map` and leave the nested scope. -/
def branchAt (q : MultiwayJoin) (env : Env) (t index : Nat) : Option Coll := do
  let folded ← (stepsOf q index).foldl (applyStep env t index)
    (initialChanges q env t index)
  let em ← extractMapOf q index
  projectColl em folded

/-- The rendered output at timestamp `t`: the concatenation of all per-source
delta branches (`render`, lines 217-220). -/
def renderAt (q : MultiwayJoin) (env : Env) (t : Nat) : Option Coll :=
  (mapOpt (branchAt q env t) (List.range q.sources)).map flat

/-- The maintained output as of timestamp `tmax`: all per-timestamp changes
accumulated. -/
def maintainedAt (q : MultiwayJoin) (env : Env) (tmax : Nat) : Option Coll :=
  (mapOpt (renderAt q env) (List.range (tmax + 1))).map flat

/-! ## From-scratch recomputation (the ground truth of the spec) -/

/-- All assignments of one tuple per source, drawn from the sources' contents
accumulated at timestamps `≤ tmax`, with multiplied multiplicities. -/
def comboList (env : Env) (tmax : Nat) : Nat → List (List Tuple × Int)
  | 0 => [([], 1)]
  | n + 1 =>
    flat ((comboList env tmax n).map (fun c =>
      (accumUpTo env n tmax).map (fun p => (c.1 ++ [p.1], c.2 * p.2))))

/-- The value an attribute reference takes under an assignment of tuples. -/
def evalRef (ts : List Tuple) (r : Nat × Nat) : Option Nat := do
  nth (← nth ts r.2) r.1

/-- Whether an equality constraint holds under an assignment of tuples. -/
def constraintHolds (ts : List Tuple) (c : List (Nat × Nat)) : Option Bool := do
  let vs ← mapOpt (evalRef ts) c
  pure (match vs with
        | [] => true
        | v :: rest => rest.all (fun w => w = v))

/-- The from-scratch recomputation at timestamp `tmax`: the equality-filtered
Cartesian product of all sources' accumulated contents, projected onto
`results` (order and duplicates preserved), with multiplicities. -/
def fromScratch (q : MultiwayJoin) (env : Env) (tmax : Nat) : Option Coll :=
  (mapOpt (fun c => do
    let oks ← mapOpt (constraintHolds c.1) q.equalities
    if oks.all (fun b => b) then
      let out ← mapOpt (evalRef c.1) q.results
      pure [(out, c.2)]
    else
      pure []) (comboList env tmax q.sources)).map flat

/-! ## Concrete instances -/

/-- The spec's walkthrough scenario: R(a,b), S(b,c), T(c,a) with
R.b = S.b, S.c = T.c, T.a = R.a and results `[R.a, S.c]`. -/
def scenario3 : MultiwayJoin :=
  { results := [(0, 0), (1, 1)]
    sources := 3
    equalities := [[(1, 0), (0, 1)], [(1, 1), (0, 2)], [(1, 2), (0, 0)]] }

/-- Inserting R = (1,2), S = (2,3), T = (3,1) in the same round (timestamp 0). -/
def scenario3Env : Env := fun i t =>
  if t = 0 then
    if i = 0 then [([1, 2], 1)]
    else if i = 1 then [([2, 3], 1)]
    else if i = 2 then [([3, 1], 1)]
    else []
  else []


/-- A two-relation join R(a,b) ⋈ S(a,c) on R.a = S.a with results `[R.b, S.c]`. -/
def pairJoin : MultiwayJoin :=
  { results := [(1, 0), (1, 1)]
    sources := 2
    equalities := [[(0, 0), (0, 1)]] }

/-- R = (1,2) and S = (1,3) inserted at the same timestamp 0. -/
def pairJoinEnv : Env := fun i t =>
  if t = 0 then
    if i = 0 then [([1, 2], 1)] else if i = 1 then [([1, 3], 1)] else []
  else []


/-- A malformed plan: `(0,0)` appears in two equality lists, source 3 is
disconnected from every other source, and no results are requested. -/
def badPlan : MultiwayJoin :=
  { results := []
    sources := 4
    equalities := [[(0, 0), (0, 1)], [(0, 0), (0, 2)]] }

/-- Every source holds the single unary tuple (5). -/
def badPlanEnv : Env := fun _ t => if t = 0 then [([5], 1)] else []


/-! ## Basic lemmas about the list helpers -/

theorem nth_isSome_of_lt {l : List α} {i : Nat} (h : i < l.length) : (nth l i).isSome := by
  induction l generalizing i with
  | nil => simp at h
  | cons a t ih =>
    cases i with
    | zero => simp [nth]
    | succ i => exact ih (Nat.lt_of_succ_lt_succ h)

theorem mapOpt_length {f : α → Option β} {l : List α} {out : List β}
    (h : mapOpt f l = some out) : out.length = l.length := by
  induction l generalizing out with
  | nil => simp [mapOpt] at h; simp [← h]
  | cons a t ih =>
    simp only [mapOpt] at h
    cases hfa : f a with
    | none => rw [hfa] at h; simp at h
    | some b =>
      rw [hfa] at h
      cases hft : mapOpt f t with
      | none => rw [hft] at h; simp at h
      | some bs =>
        rw [hft] at h
        simp only [Option.some.injEq] at h
        subst h
        simp [ih hft]

theorem mapOpt_isSome {f : α → Option β} {l : List α}
    (h : ∀ a ∈ l, (f a).isSome) : (mapOpt f l).isSome := by
  induction l with
  | nil => simp [mapOpt]
  | cons a t ih =>
    have ha := h a (by simp)
    cases hfa : f a with
    | none => rw [hfa] at ha; simp at ha
    | some b =>
      have ht := ih (fun x hx => h x (by simp [hx]))
      cases hft : mapOpt f t with
      | none => rw [hft] at ht; simp at ht
      | some bs => simp [mapOpt, hfa, hft]

theorem mapOpt_eq_none_of_mem {f : α → Option β} {l : List α} {a : α}
    (ha : a ∈ l) (hfa : f a = none) : mapOpt f l = none := by
  induction l with
  | nil => simp at ha
  | cons b t ih =>
    rcases List.mem_cons.1 ha with rfl | hmem
    · simp [mapOpt, hfa]
    · simp only [mapOpt, ih hmem]
      cases f b <;> rfl

theorem mapOpt_mem_rev {f : α → Option β} {l : List α} {out : List β} {b : β}
    (h : mapOpt f l = some out) (hb : b ∈ out) : ∃ a ∈ l, f a = some b := by
  induction l generalizing out with
  | nil => simp [mapOpt] at h; subst h; simp at hb
  | cons a t ih =>
    simp only [mapOpt] at h
    cases hfa : f a with
    | none => rw [hfa] at h; simp at h
    | some b' =>
      rw [hfa] at h
      cases hft : mapOpt f t with
      | none => rw [hft] at h; simp at h
      | some bs =>
        rw [hft] at h
        simp only [Option.some.injEq] at h
        subst h
        rcases List.mem_cons.1 hb with rfl | hmem
        · exact ⟨a, by simp, hfa⟩
        · rcases ih hft hmem with ⟨x, hx, hfx⟩
          exact ⟨x, by simp [hx], hfx⟩

theorem has_iff [DecidableEq α] {l : List α} {x : α} : has l x = true ↔ x ∈ l := by
  induction l with
  | nil => simp [has]
  | cons a t ih =>
    by_cases hax : a = x
    · simp [has, hax]
    · simp [has, hax, ih, Ne.symm hax]

theorem listPosition_lt_length {p : α → Bool} {l : List α} {i : Nat}
    (h : listPosition p l = some i) : i < l.length := by
  induction l generalizing i with
  | nil => simp [listPosition] at h
  | cons a t ih =>
    simp only [listPosition] at h
    by_cases hpa : p a
    · simp [hpa] at h; simp [← h]
    · simp only [hpa, if_neg, Bool.false_eq_true, if_false] at h
      cases hpt : listPosition p t with
      | none => rw [hpt] at h; simp at h
      | some j =>
        rw [hpt] at h
        simp only [Option.map_some', Option.some.injEq] at h
        subst h
        exact Nat.succ_lt_succ (ih hpt)

theorem mem_flat {l : List (List α)} {x : α} : x ∈ flat l ↔ ∃ a ∈ l, x ∈ a := by
  induction l with
  | nil => simp [flat]
  | cons a t ih =>
    simp only [flat, List.mem_append, ih, List.mem_cons]
    constructor
    · rintro (hx | ⟨b, hb, hxb⟩)
      · exact ⟨a, Or.inl rfl, hx⟩
      · exact ⟨b, Or.inr hb, hxb⟩
    · rintro ⟨b, rfl | hb, hxb⟩
      · exact Or.inl hxb
      · exact Or.inr ⟨b, hb, hxb⟩

theorem flat_length {l : List (List α)} : (flat l).length = (l.map List.length).sum := by
  induction l with
  | nil => simp [flat]
  | cons a t ih => simp [flat, ih]

theorem projectTuple_length {cols : List Nat} {tu out : Tuple}
    (h : projectTuple cols tu = some out) : out.length = cols.length :=
  mapOpt_length h

theorem projectTuple_isSome {cols : List Nat} {tu : Tuple}
    (h : ∀ i ∈ cols, i < tu.length) : (projectTuple cols tu).isSome :=
  mapOpt_isSome (fun i hi => nth_isSome_of_lt (h i hi))

/-! ## The attribute planner is a sorted, duplicate-free union (claim C8) -/

theorem pairLe_antisymm {a b : Nat × Nat} (hab : pairLe a b) (hba : pairLe b a) : a = b := by
  rcases hab with h | ⟨h1, h2⟩
  · rcases hba with h' | ⟨h1', _⟩
    · exact absurd (h.trans h') (lt_irrefl _)
    · exact absurd h (by simp [h1'])
  · rcases hba with h' | ⟨h1', h2'⟩
    · exact absurd h' (by simp [h1])
    · exact Prod.ext h1 (le_antisymm h2 h2')

theorem dedupGo_subset [DecidableEq α] {prev : α} {t : List α} {x : α}
    (h : x ∈ dedupGo prev t) : x ∈ t := by
  induction t generalizing prev with
  | nil => simp [dedupGo] at h
  | cons b t' ih =>
    simp only [dedupGo] at h
    by_cases hpb : prev = b
    · subst hpb
      rw [if_pos rfl] at h
      exact List.mem_cons_of_mem _ (ih h)
    · rw [if_neg hpb] at h
      rcases List.mem_cons.1 h with rfl | hmem
      · simp
      · exact List.mem_cons_of_mem _ (ih hmem)

theorem mem_dedupGo_of_mem [DecidableEq α] {prev : α} {t : List α} {x : α}
    (h : x ∈ t) : x ∈ dedupGo prev t ∨ x = prev := by
  induction t generalizing prev with
  | nil => simp at h
  | cons b t' ih =>
    simp only [dedupGo]
    by_cases hpb : prev = b
    · rw [if_pos hpb]
      rcases List.mem_cons.1 h with rfl | hmem
      · exact Or.inr hpb.symm
      · exact ih hmem
    · rw [if_neg hpb]
      rcases List.mem_cons.1 h with rfl | hmem
      · exact Or.inl (by simp)
      · rcases @ih b hmem with hin | rfl
        · exact Or.inl (List.mem_cons_of_mem _ hin)
        · exact Or.inl (by simp)

theorem dedupGo_nodup {prev : Nat × Nat} {t : List (Nat × Nat)}
    (h : (prev :: t).Pairwise pairLe) :
    (dedupGo prev t).Nodup ∧ prev ∉ dedupGo prev t := by
  induction t generalizing prev with
  | nil => simp [dedupGo]
  | cons b t' ih =>
    rcases List.pairwise_cons.1 h with ⟨hle, hpt⟩
    simp only [dedupGo]
    by_cases hpb : prev = b
    · rw [if_pos hpb]
      apply ih
      rcases List.pairwise_cons.1 hpt with ⟨hble, ht'⟩
      exact List.pairwise_cons.2 ⟨fun x hx => hle x (List.mem_cons_of_mem _ hx), ht'⟩
    · rw [if_neg hpb]
      have hrec := @ih b hpt
      refine ⟨List.nodup_cons.2 ⟨hrec.2, hrec.1⟩, ?_⟩
      intro hmem
      rcases List.mem_cons.1 hmem with rfl | hmem'
      · exact hpb rfl
      · have hprev_t' := dedupGo_subset hmem'
        have h1 : pairLe prev b := hle b (by simp)
        have h2 : pairLe b prev :=
          (List.pairwise_cons.1 hpt).1 prev hprev_t'
        exact hpb (pairLe_antisymm h1 h2)

theorem rustDedup_mem [DecidableEq α] {l : List α} {x : α} :
    x ∈ rustDedup l ↔ x ∈ l := by
  cases l with
  | nil => simp [rustDedup]
  | cons a t =>
    simp only [rustDedup, List.mem_cons]
    constructor
    · rintro (rfl | hmem)
      · exact Or.inl rfl
      · exact Or.inr (dedupGo_subset hmem)
    · rintro (rfl | hmem)
      · exact Or.inl rfl
      · have hor : x ∈ dedupGo a t ∨ x = a := mem_dedupGo_of_mem hmem
        rcases hor with hin | rfl
        · exact Or.inr hin
        · exact Or.inl rfl

theorem rustDedup_nodup {l : List (Nat × Nat)} (h : l.Pairwise pairLe) :
    (rustDedup l).Nodup := by
  cases l with
  | nil => simp [rustDedup]
  | cons a t =>
    have hrec := dedupGo_nodup h
    exact List.nodup_cons.2 ⟨hrec.2, hrec.1⟩

theorem dedupGo_sublist [DecidableEq α] {prev : α} {t : List α} :
    List.Sublist (dedupGo prev t) t := by
  induction t generalizing prev with
  | nil => simp [dedupGo]
  | cons b t' ih =>
    simp only [dedupGo]
    by_cases hpb : prev = b
    · rw [if_pos hpb]
      exact (@ih prev).trans (List.sublist_cons_self _ _)
    · rw [if_neg hpb]
      exact List.Sublist.cons₂ _ (@ih b)

theorem rustDedup_sublist [DecidableEq α] {l : List α} : List.Sublist (rustDedup l) l := by
  cases l with
  | nil => simp [rustDedup]
  | cons a t => exact List.Sublist.cons₂ _ dedupGo_sublist

/-- Claim C8: `relevant_attributes` is the duplicate-free, sorted union of the
`results` references and the references of every equality constraint. -/
theorem c8_relevant_attributes_spec (q : MultiwayJoin) :
    (relevant_attributes q).Nodup ∧
    (relevant_attributes q).Pairwise pairLe ∧
    ∀ a, (a ∈ relevant_attributes q ↔
      (a ∈ q.results ∨ ∃ c ∈ q.equalities, a ∈ c)) := by
  have hsorted : (List.insertionSort pairLe (q.results ++ flat q.equalities)).Pairwise pairLe :=
    List.sorted_insertionSort pairLe _
  refine ⟨rustDedup_nodup hsorted, hsorted.sublist rustDedup_sublist, fun a => ?_⟩
  unfold relevant_attributes
  rw [rustDedup_mem, (List.perm_insertionSort pairLe _).mem_iff, List.mem_append, mem_flat]

/-! ## The join-order planner computes the equality-graph closure (claim C3) -/

/-- Reachability from `source` in the graph whose edges are "the two relation
indices co-occur in an equality constraint". -/
inductive Reachable (cs : List (List (Nat × Nat))) (source : Nat) : Nat → Prop
  | refl : Reachable cs source source
  | step {i j : Nat} (c : List (Nat × Nat)) :
      Reachable cs source i → c ∈ cs →
      (∃ a, (a, i) ∈ c) → (∃ b, (b, j) ∈ c) → Reachable cs source j

theorem foldl_app {f : List β → α → List β}
    (hf : ∀ r x, ∃ ex, f r x = r ++ ex) :
    ∀ (l : List α) (r : List β), ∃ ex, l.foldl f r = r ++ ex := by
  intro l
  induction l with
  | nil => exact fun r => ⟨[], by simp⟩
  | cons a t ih =>
    intro r
    rcases hf r a with ⟨ex1, hex1⟩
    rcases ih (f r a) with ⟨ex2, hex2⟩
    refine ⟨ex1 ++ ex2, ?_⟩
    rw [List.foldl_cons, hex2, hex1, List.append_assoc]

theorem addUnseen_app (res : List Nat) (c : List (Nat × Nat)) :
    ∃ ex, addUnseen res c = res ++ ex :=
  foldl_app (fun r p => by
    by_cases h : has r p.2
    · exact ⟨[], by simp [h]⟩
    · exact ⟨[p.2], by simp [h]⟩) c res

theorem scanOnce_app (cs : List (List (Nat × Nat))) (res : List Nat) :
    ∃ ex, scanOnce cs res = res ++ ex :=
  foldl_app (fun r c => by
    by_cases h : c.any (fun p => has r p.2)
    · rcases addUnseen_app r c with ⟨ex, hex⟩
      exact ⟨ex, by simp [scanOnce, h, hex]⟩
    · exact ⟨[], by simp [scanOnce, h]⟩) cs res

theorem joinLoop_app (cs : List (List (Nat × Nat))) :
    ∀ (fuel : Nat) (res : List Nat), ∃ ex, joinLoop cs fuel res = res ++ ex := by
  intro fuel
  induction fuel with
  | zero => exact fun res => ⟨[], by simp [joinLoop]⟩
  | succ f ih =>
    intro res
    simp only [joinLoop]
    by_cases heq : scanOnce cs res = res
    · exact ⟨[], by simp [heq]⟩
    · rcases scanOnce_app cs res with ⟨ex1, hex1⟩
      rcases ih (scanOnce cs res) with ⟨ex2, hex2⟩
      refine ⟨ex1 ++ ex2, ?_⟩
      rw [if_neg heq, hex2, hex1, List.append_assoc]

theorem mem_scanOnce_of_mem {cs : List (List (Nat × Nat))} {res : List Nat} {x : Nat}
    (h : x ∈ res) : x ∈ scanOnce cs res := by
  rcases scanOnce_app cs res with ⟨ex, hex⟩
  rw [hex]
  exact List.mem_append_left _ h

theorem mem_addUnseen_of_mem_constraint {res : List Nat} {c : List (Nat × Nat)}
    {q : Nat × Nat} (hq : q ∈ c) : q.2 ∈ addUnseen res c := by
  induction c generalizing res with
  | nil => simp at hq
  | cons p c' ih =>
    simp only [addUnseen, List.foldl_cons]
    rcases List.mem_cons.1 hq with rfl | hmem
    · -- the element itself is processed first; afterwards membership persists
      have hstep : q.2 ∈ (if has res q.2 then res else res ++ [q.2]) := by
        by_cases h : has res q.2
        · simp [h, has_iff.1 h]
        · simp [h]
      rcases foldl_app (f := fun r (p : Nat × Nat) => if has r p.2 then r else r ++ [p.2])
        (fun r p => by
          by_cases h : has r p.2
          · exact ⟨[], by simp [h]⟩
          · exact ⟨[p.2], by simp [h]⟩) c' (if has res q.2 then res else res ++ [q.2])
        with ⟨ex, hex⟩
      show q.2 ∈ List.foldl _ _ c'
      rw [hex]
      exact List.mem_append_left _ hstep
    · exact ih hmem

theorem mem_addUnseen_src {res : List Nat} {c : List (Nat × Nat)} {x : Nat}
    (h : x ∈ addUnseen res c) : x ∈ res ∨ ∃ a, (a, x) ∈ c := by
  induction c generalizing res with
  | nil => exact Or.inl h
  | cons p c' ih =>
    simp only [addUnseen, List.foldl_cons] at h
    rcases ih h with hmem | ⟨a, ha⟩
    · by_cases hp : has res p.2
      · rw [if_pos hp] at hmem
        exact Or.inl hmem
      · rw [if_neg hp] at hmem
        rcases List.mem_append.1 hmem with hres | hx
        · exact Or.inl hres
        · rcases List.mem_singleton.1 hx with rfl
          exact Or.inr ⟨p.1, by simp⟩
    · exact Or.inr ⟨a, by simp [ha]⟩

theorem mem_scanOnce_src {cs : List (List (Nat × Nat))} {res : List Nat} {x : Nat}
    (h : x ∈ scanOnce cs res) : x ∈ res ∨ ∃ c ∈ cs, ∃ a, (a, x) ∈ c := by
  induction cs generalizing res with
  | nil => exact Or.inl h
  | cons c cs' ih =>
    simp only [scanOnce, List.foldl_cons] at h
    rcases ih h with hmem | ⟨c', hc', a, ha⟩
    · by_cases hc : c.any (fun p => has res p.2)
      · rw [if_pos hc] at hmem
        rcases mem_addUnseen_src hmem with hres | ⟨a, ha⟩
        · exact Or.inl hres
        · exact Or.inr ⟨c, by simp, a, ha⟩
      · rw [if_neg hc] at hmem
        exact Or.inl hmem
    · exact Or.inr ⟨c', by simp [hc'], a, ha⟩

theorem addUnseen_nodup {res : List Nat} {c : List (Nat × Nat)}
    (h : res.Nodup) : (addUnseen res c).Nodup := by
  induction c generalizing res with
  | nil => exact h
  | cons p c' ih =>
    simp only [addUnseen, List.foldl_cons]
    apply ih
    by_cases hp : has res p.2
    · simpa [hp] using h
    · rw [if_neg hp]
      have hnot : p.2 ∉ res := fun hmem => hp (has_iff.2 hmem)
      exact ((List.perm_append_singleton p.2 res).nodup_iff).2 (List.nodup_cons.2 ⟨hnot, h⟩)

theorem scanOnce_nodup {cs : List (List (Nat × Nat))} {res : List Nat}
    (h : res.Nodup) : (scanOnce cs res).Nodup := by
  induction cs generalizing res with
  | nil => exact h
  | cons c cs' ih =>
    simp only [scanOnce, List.foldl_cons]
    apply ih
    by_cases hc : c.any (fun p => has res p.2)
    · rw [if_pos hc]; exact addUnseen_nodup h
    · rw [if_neg hc]; exact h

theorem scanOnce_reach {source : Nat} {cs0 cs : List (List (Nat × Nat))}
    (hsub : ∀ c ∈ cs, c ∈ cs0) {res : List Nat}
    (hres : ∀ x ∈ res, Reachable cs0 source x) :
    ∀ x ∈ scanOnce cs res, Reachable cs0 source x := by
  induction cs generalizing res with
  | nil => exact hres
  | cons c cs' ih =>
    simp only [scanOnce, List.foldl_cons]
    apply ih (fun c' hc' => hsub c' (List.mem_cons_of_mem _ hc'))
    by_cases hc : c.any (fun p => has res p.2)
    · rw [if_pos hc]
      rcases List.any_eq_true.1 hc with ⟨p, hp, hpin⟩
      have hpreach : Reachable cs0 source p.2 := hres p.2 (has_iff.1 hpin)
      intro x hx
      rcases mem_addUnseen_src hx with hmem | ⟨a, ha⟩
      · exact hres x hmem
      · exact Reachable.step c hpreach (hsub c (by simp)) ⟨p.1, by simpa using hp⟩ ⟨a, ha⟩
    · rw [if_neg hc]; exact hres

theorem scanOnce_complete {cs : List (List (Nat × Nat))} {res : List Nat}
    {c : List (Nat × Nat)} (hc : c ∈ cs) {p : Nat × Nat} (hp : p ∈ c)
    (hpin : p.2 ∈ res) {q : Nat × Nat} (hq : q ∈ c) : q.2 ∈ scanOnce cs res := by
  induction cs generalizing res with
  | nil => simp at hc
  | cons c0 cs' ih =>
    simp only [scanOnce, List.foldl_cons]
    rcases List.mem_cons.1 hc with rfl | hmem
    · have htest : c.any (fun x => has res x.2) = true :=
        List.any_eq_true.2 ⟨p, hp, has_iff.2 hpin⟩
      rw [if_pos htest]
      show q.2 ∈ scanOnce cs' (addUnseen res c)
      exact mem_scanOnce_of_mem (mem_addUnseen_of_mem_constraint hq)
    · -- membership survives the first constraint and the recursion applies
      have hpin' : p.2 ∈ (if c0.any (fun x => has res x.2) then addUnseen res c0 else res) := by
        by_cases h0 : c0.any (fun x => has res x.2)
        · rw [if_pos h0]
          rcases addUnseen_app res c0 with ⟨ex, hex⟩
          rw [hex]; exact List.mem_append_left _ hpin
        · rw [if_neg h0]; exact hpin
      exact ih hmem hpin'

/-- The relation indices mentioned anywhere in the constraints. -/
def idxList (cs : List (List (Nat × Nat))) : List Nat := (flat cs).map Prod.snd

/-- How many mentioned indices the sequence does not yet contain; the measure
the `while` loop of `plan_join_order` strictly decreases. -/
def missingCount (cs : List (List (Nat × Nat))) (res : List Nat) : Nat :=
  ((idxList cs).filter (fun x => !(has res x))).length

theorem filter_len_le {p q : α → Bool} (himp : ∀ x, q x = true → p x = true) :
    ∀ l : List α, (l.filter q).length ≤ (l.filter p).length := by
  intro l
  induction l with
  | nil => simp
  | cons a t ih =>
    by_cases hqa : q a = true
    · rw [List.filter_cons, List.filter_cons, if_pos hqa, if_pos (himp a hqa)]
      simpa using ih
    · rw [List.filter_cons, if_neg (by simp [hqa])]
      rw [List.filter_cons]
      by_cases hpa : p a = true
      · rw [if_pos hpa]
        exact ih.trans (by simp)
      · rw [if_neg (by simp [hpa])]
        exact ih

theorem filter_len_lt {p q : α → Bool} (himp : ∀ x, q x = true → p x = true)
    {l : List α} {e : α} (he : e ∈ l) (hpe : p e = true) (hqe : q e = false) :
    (l.filter q).length < (l.filter p).length := by
  induction l with
  | nil => simp at he
  | cons a t ih =>
    rcases List.mem_cons.1 he with rfl | hmem
    · rw [List.filter_cons, List.filter_cons, if_pos hpe, if_neg (by simp [hqe])]
      exact Nat.lt_succ_of_le (filter_len_le himp t)
    · rw [List.filter_cons, List.filter_cons]
      by_cases hqa : q a = true
      · rw [if_pos hqa, if_pos (himp a hqa)]
        exact Nat.succ_lt_succ (ih hmem)
      · rw [if_neg (by simp [hqa])]
        by_cases hpa : p a = true
        · rw [if_pos hpa]
          exact (ih hmem).trans (by simp)
        · rw [if_neg (by simp [hpa])]
          exact ih hmem

theorem scanOnce_missing_lt {cs : List (List (Nat × Nat))} {res : List Nat}
    (hnd : res.Nodup) (hne : scanOnce cs res ≠ res) :
    missingCount cs (scanOnce cs res) < missingCount cs res := by
  rcases scanOnce_app cs res with ⟨ex, hex⟩
  cases ex with
  | nil => exact absurd (by simpa using hex) hne
  | cons e ex' =>
    have hescan : e ∈ scanOnce cs res := by
      rw [hex]; exact List.mem_append_right _ (by simp)
    have henres : e ∉ res := by
      have hnd' : (res ++ e :: ex').Nodup := by
        rw [← hex]; exact scanOnce_nodup hnd
      intro hmem
      exact (List.disjoint_of_nodup_append hnd') hmem (by simp)
    have heidx : e ∈ idxList cs := by
      rcases mem_scanOnce_src hescan with hmem | ⟨c, hc, a, ha⟩
      · exact absurd hmem henres
      · exact List.mem_map.2 ⟨(a, e), mem_flat.2 ⟨c, hc, ha⟩, rfl⟩
    apply filter_len_lt (p := fun x => !(has res x)) (q := fun x => !(has (scanOnce cs res) x))
    · intro x hx
      simp only [Bool.not_eq_true'] at hx ⊢
      cases hres : has res x with
      | false => rfl
      | true =>
        have hmem' : x ∈ scanOnce cs res := mem_scanOnce_of_mem (has_iff.1 hres)
        have htrue : has (scanOnce cs res) x = true := has_iff.2 hmem'
        rw [htrue] at hx
        exact absurd hx (by simp)
    · exact heidx
    · simp [Bool.not_eq_true', ← Bool.not_eq_true, has_iff, henres]
    · simp [Bool.not_eq_true', has_iff, hescan]

theorem joinLoop_fix {cs : List (List (Nat × Nat))} :
    ∀ (fuel : Nat) (res : List Nat), res.Nodup → missingCount cs res < fuel →
    scanOnce cs (joinLoop cs fuel res) = joinLoop cs fuel res := by
  intro fuel
  induction fuel with
  | zero => intro res _ h; omega
  | succ f ih =>
    intro res hnd hlt
    simp only [joinLoop]
    by_cases heq : scanOnce cs res = res
    · rw [if_pos heq]
      exact heq
    · rw [if_neg heq]
      exact ih _ (scanOnce_nodup hnd)
        (Nat.lt_of_lt_of_le (scanOnce_missing_lt hnd heq) (Nat.lt_succ_iff.1 hlt))

theorem joinLoop_nodup {cs : List (List (Nat × Nat))} :
    ∀ (fuel : Nat) (res : List Nat), res.Nodup → (joinLoop cs fuel res).Nodup := by
  intro fuel
  induction fuel with
  | zero => intro res h; exact h
  | succ f ih =>
    intro res hnd
    simp only [joinLoop]
    by_cases heq : scanOnce cs res = res
    · rw [if_pos heq]; exact hnd
    · rw [if_neg heq]; exact ih _ (scanOnce_nodup hnd)

theorem joinLoop_reach {source : Nat} {cs : List (List (Nat × Nat))} :
    ∀ (fuel : Nat) (res : List Nat), (∀ x ∈ res, Reachable cs source x) →
    ∀ x ∈ joinLoop cs fuel res, Reachable cs source x := by
  intro fuel
  induction fuel with
  | zero => intro res h; exact h
  | succ f ih =>
    intro res hres
    simp only [joinLoop]
    by_cases heq : scanOnce cs res = res
    · rw [if_pos heq]; exact hres
    · rw [if_neg heq]
      exact ih _ (scanOnce_reach (fun c hc => hc) hres)

theorem missingCount_init_lt (cs : List (List (Nat × Nat))) (res : List Nat) :
    missingCount cs res < (flat cs).length + 1 := by
  have h1 : missingCount cs res ≤ (idxList cs).length := List.length_filter_le _ _
  have h2 : (idxList cs).length = (flat cs).length := List.length_map _ _
  omega

/-- The fuel in `plan_join_order` suffices: the loop has reached its fixpoint.
This is the termination argument for the Rust `while active` loop. -/
theorem scanOnce_planJoinOrder (source : Nat) (cs : List (List (Nat × Nat))) :
    scanOnce cs (plan_join_order source cs) = plan_join_order source cs :=
  joinLoop_fix _ [source] (by simp) (missingCount_init_lt cs [source])

/-- Membership in `plan_join_order` is exactly reachability through shared
equality constraints. -/
theorem mem_planJoinOrder_iff {source : Nat} {cs : List (List (Nat × Nat))} {j : Nat} :
    j ∈ plan_join_order source cs ↔ Reachable cs source j := by
  constructor
  · intro h
    exact joinLoop_reach _ [source]
      (fun x hx => by rcases List.mem_singleton.1 hx with rfl; exact Reachable.refl) j h
  · intro h
    induction h with
    | refl =>
      rcases joinLoop_app cs ((flat cs).length + 1) [source] with ⟨ex, hex⟩
      show source ∈ joinLoop cs ((flat cs).length + 1) [source]
      rw [hex]
      exact List.mem_append_left _ (by simp)
    | step c hreach hc hai hbj ih =>
      rcases hai with ⟨a, ha⟩
      rcases hbj with ⟨b, hb⟩
      have := scanOnce_complete hc ha ih hb
      rwa [scanOnce_planJoinOrder] at this

/-- Claim C3: `plan_join_order` terminates (its scan reaches a fixpoint within
the modelled fuel), starts with the seed, lists exactly the relation indices
reachable from the seed through the equality-constraint graph, each exactly
once, and is a deterministic function of its arguments. -/
theorem c3_plan_join_order_spec (source : Nat) (cs : List (List (Nat × Nat))) :
    (plan_join_order source cs).head? = some source ∧
    (plan_join_order source cs).Nodup ∧
    (∀ j, j ∈ plan_join_order source cs ↔ Reachable cs source j) ∧
    scanOnce cs (plan_join_order source cs) = plan_join_order source cs := by
  refine ⟨?_, ?_, fun j => mem_planJoinOrder_iff, scanOnce_planJoinOrder source cs⟩
  · rcases joinLoop_app cs ((flat cs).length + 1) [source] with ⟨ex, hex⟩
    show (joinLoop cs ((flat cs).length + 1) [source]).head? = some source
    rw [hex]
    rfl
  · exact joinLoop_nodup _ [source] (by simp)

/-! ## The key/value resolver is well-formed (claim C4) -/

theorem dkp_inner {relation prior : Nat} :
    ∀ (c : List (Nat × Nat)) (kp : List Nat × List Nat),
    (kp.1.length = kp.2.length →
      (c.foldl (fun kp2 p =>
        if p.2 = relation then (kp2.1 ++ [p.1], kp2.2 ++ [prior]) else kp2) kp).1.length =
      (c.foldl (fun kp2 p =>
        if p.2 = relation then (kp2.1 ++ [p.1], kp2.2 ++ [prior]) else kp2) kp).2.length) ∧
    (∀ k ∈ (c.foldl (fun kp2 p =>
        if p.2 = relation then (kp2.1 ++ [p.1], kp2.2 ++ [prior]) else kp2) kp).1,
      k ∈ kp.1 ∨ (k, relation) ∈ c) ∧
    (∀ pr ∈ (c.foldl (fun kp2 p =>
        if p.2 = relation then (kp2.1 ++ [p.1], kp2.2 ++ [prior]) else kp2) kp).2,
      pr ∈ kp.2 ∨ pr = prior) := by
  intro c
  induction c with
  | nil => exact fun kp => ⟨id, fun k hk => Or.inl hk, fun pr hpr => Or.inl hpr⟩
  | cons p c' ih =>
    intro kp
    simp only [List.foldl_cons]
    by_cases hp : p.2 = relation
    · rw [if_pos hp]
      refine ⟨?_, ?_, ?_⟩
      · intro hlen
        exact (ih (kp.1 ++ [p.1], kp.2 ++ [prior])).1 (by simp [hlen])
      · intro k hk
        rcases (ih (kp.1 ++ [p.1], kp.2 ++ [prior])).2.1 k hk with hmem | hin
        · rcases List.mem_append.1 hmem with h1 | h1
          · exact Or.inl h1
          · rcases List.mem_singleton.1 h1 with rfl
            refine Or.inr (List.mem_cons.2 (Or.inl ?_))
            rw [← hp]
        · exact Or.inr (List.mem_cons_of_mem _ hin)
      · intro pr hpr
        rcases (ih (kp.1 ++ [p.1], kp.2 ++ [prior])).2.2 pr hpr with hmem | heq
        · rcases List.mem_append.1 hmem with h1 | h1
          · exact Or.inl h1
          · exact Or.inr (List.mem_singleton.1 h1)
        · exact Or.inr heq
    · rw [if_neg hp]
      refine ⟨(ih kp).1, ?_, (ih kp).2.2⟩
      intro k hk
      rcases (ih kp).2.1 k hk with hmem | hin
      · exact Or.inl hmem
      · exact Or.inr (List.mem_cons_of_mem _ hin)

theorem dkp_outer (relation : Nat) (cur : List (Nat × Nat)) :
    ∀ (cs : List (List (Nat × Nat))) (kp : List Nat × List Nat),
    (kp.1.length = kp.2.length →
      (cs.foldl (fun kp c =>
        match listPosition (fun x => has c x) cur with
        | some prior =>
          c.foldl (fun kp2 p =>
            if p.2 = relation then (kp2.1 ++ [p.1], kp2.2 ++ [prior]) else kp2) kp
        | none => kp) kp).1.length =
      (cs.foldl (fun kp c =>
        match listPosition (fun x => has c x) cur with
        | some prior =>
          c.foldl (fun kp2 p =>
            if p.2 = relation then (kp2.1 ++ [p.1], kp2.2 ++ [prior]) else kp2) kp
        | none => kp) kp).2.length) ∧
    (∀ k ∈ (cs.foldl (fun kp c =>
        match listPosition (fun x => has c x) cur with
        | some prior =>
          c.foldl (fun kp2 p =>
            if p.2 = relation then (kp2.1 ++ [p.1], kp2.2 ++ [prior]) else kp2) kp
        | none => kp) kp).1,
      k ∈ kp.1 ∨ ∃ c ∈ cs, (k, relation) ∈ c) ∧
    (∀ pr ∈ (cs.foldl (fun kp c =>
        match listPosition (fun x => has c x) cur with
        | some prior =>
          c.foldl (fun kp2 p =>
            if p.2 = relation then (kp2.1 ++ [p.1], kp2.2 ++ [prior]) else kp2) kp
        | none => kp) kp).2,
      pr ∈ kp.2 ∨ pr < cur.length) := by
  intro cs
  induction cs with
  | nil => exact fun kp => ⟨id, fun k hk => Or.inl hk, fun pr hpr => Or.inl hpr⟩
  | cons c cs' ih =>
    intro kp
    simp only [List.foldl_cons]
    cases hpos : listPosition (fun x => has c x) cur with
    | none =>
      refine ⟨(ih kp).1, ?_, (ih kp).2.2⟩
      intro k hk
      rcases (ih kp).2.1 k hk with hmem | ⟨c', hc', hin⟩
      · exact Or.inl hmem
      · exact Or.inr ⟨c', List.mem_cons_of_mem _ hc', hin⟩
    | some prior =>
      have hbound : prior < cur.length := listPosition_lt_length hpos
      set kp' := c.foldl (fun kp2 p =>
        if p.2 = relation then (kp2.1 ++ [p.1], kp2.2 ++ [prior]) else kp2) kp with hkp'
      refine ⟨?_, ?_, ?_⟩
      · intro hlen
        exact (ih kp').1 ((dkp_inner c kp).1 hlen)
      · intro k hk
        rcases (ih kp').2.1 k hk with hmem | ⟨c', hc', hin⟩
        · rcases (dkp_inner c kp).2.1 k hmem with h1 | h1
          · exact Or.inl h1
          · exact Or.inr ⟨c, by simp, h1⟩
        · exact Or.inr ⟨c', List.mem_cons_of_mem _ hc', hin⟩
      · intro pr hpr
        rcases (ih kp').2.2 pr hpr with hmem | hlt
        · rcases (dkp_inner c kp).2.2 pr hmem with h1 | rfl
          · exact Or.inl h1
          · exact Or.inr hbound
        · exact Or.inr hlt

/-- Claim C4: the two lists returned by `determine_keys_priors` have equal
length; under the in-range invariant every key is a valid local attribute
index of the relation; and every prior is a valid position in the attribute
list passed in. -/
theorem c4_determine_keys_priors_wf (relation : Nat)
    (constraints : List (List (Nat × Nat))) (current_attributes : List (Nat × Nat))
    (arity : Nat)
    (hin : ∀ c ∈ constraints, ∀ p ∈ c, p.2 = relation → p.1 < arity) :
    (determine_keys_priors relation constraints current_attributes).1.length =
      (determine_keys_priors relation constraints current_attributes).2.length ∧
    (∀ k ∈ (determine_keys_priors relation constraints current_attributes).1, k < arity) ∧
    (∀ pr ∈ (determine_keys_priors relation constraints current_attributes).2,
      pr < current_attributes.length) := by
  have h := dkp_outer relation current_attributes constraints ([], [])
  refine ⟨h.1 rfl, ?_, ?_⟩
  · intro k hk
    rcases h.2.1 k hk with hmem | ⟨c, hc, hin'⟩
    · simp at hmem
    · exact hin c hc (k, relation) hin' rfl
  · intro pr hpr
    rcases h.2.2 pr hpr with hmem | hlt
    · simp at hmem
    · exact hlt

/-- Witness for C4 at the two-relation join: relation 1 of `pairJoin` against
the accumulated attributes of relation 0. -/
theorem c4_determine_keys_priors_wf_witness :
    (∀ c ∈ pairJoin.equalities, ∀ p ∈ c, p.2 = 1 → p.1 < 1) ∧
    ((determine_keys_priors 1 pairJoin.equalities [(0, 0)]).1.length =
      (determine_keys_priors 1 pairJoin.equalities [(0, 0)]).2.length ∧
    (∀ k ∈ (determine_keys_priors 1 pairJoin.equalities [(0, 0)]).1, k < 1) ∧
    (∀ pr ∈ (determine_keys_priors 1 pairJoin.equalities [(0, 0)]).2, pr < [(0, 0)].length)) :=
  ⟨by decide, c4_determine_keys_priors_wf 1 pairJoin.equalities [(0, 0)] 1 (by decide)⟩

/-! ## Key selectors never index out of bounds (claim C9) -/

/-- Replaying the `attributes.extend(vals)` updates of a sequence of steps. -/
def attrsAfterSteps (attributes : List (Nat × Nat)) (steps : List JoinStep) :
    List (Nat × Nat) :=
  steps.foldl (fun a s => a ++ s.vals) attributes

/-- The accumulated attribute list of branch `index` just before join step `k`. -/
def attrsUpTo (q : MultiwayJoin) (index k : Nat) : List (Nat × Nat) :=
  attrsAfterSteps (attributesInit q index) ((stepsOf q index).take k)

theorem dkp_priors_bound {relation : Nat} {cs : List (List (Nat × Nat))}
    {cur : List (Nat × Nat)} :
    ∀ pr ∈ (determine_keys_priors relation cs cur).2, pr < cur.length := by
  intro pr hpr
  have h := dkp_outer relation cur cs ([], [])
  rcases h.2.2 pr hpr with hmem | hlt
  · simp at hmem
  · exact hlt

theorem nth_take_succ {l : List α} {k : Nat} {s : α} (h : nth l k = some s) :
    l.take (k + 1) = l.take k ++ [s] := by
  induction l generalizing k with
  | nil => simp [nth] at h
  | cons a t ih =>
    cases k with
    | zero => simp [nth] at h; simp [h]
    | succ k' =>
      simp only [nth] at h
      simp [List.take_succ_cons, ih h]

theorem nth_mem {l : List α} {k : Nat} {s : α} (h : nth l k = some s) : s ∈ l := by
  induction l generalizing k with
  | nil => simp [nth] at h
  | cons a t ih =>
    cases k with
    | zero => simp [nth] at h; simp [h]
    | succ k' => exact List.mem_cons_of_mem _ (ih h)

theorem nth_none_of_le {l : List α} {k : Nat} (h : l.length ≤ k) : nth l k = none := by
  induction l generalizing k with
  | nil => simp [nth]
  | cons a t ih =>
    cases k with
    | zero => simp at h
    | succ k' => exact ih (Nat.le_of_succ_le_succ h)

/-- The steps constructed by `buildSteps`, related back to the attribute list
current when each step was planned. -/
theorem buildSteps_nth (eqs : List (List (Nat × Nat))) (relevant : List (Nat × Nat)) :
    ∀ (order : List Nat) (attributes : List (Nat × Nat)) (k : Nat) (s : JoinStep),
    nth (buildSteps eqs relevant order attributes).1 k = some s →
    s.keys = (determine_keys_priors s.joinIdx eqs
      (attrsAfterSteps attributes ((buildSteps eqs relevant order attributes).1.take k))).1 ∧
    s.priors = (determine_keys_priors s.joinIdx eqs
      (attrsAfterSteps attributes ((buildSteps eqs relevant order attributes).1.take k))).2 ∧
    s.vals = relevant.filter (fun p => p.2 = s.joinIdx && !(has s.keys p.1)) ∧
    s.projection = s.keys ++ s.vals.map Prod.fst := by
  intro order
  induction order with
  | nil => intro attributes k s h; simp [buildSteps, nth] at h
  | cons j rest ih =>
    intro attributes k s h
    simp only [buildSteps] at h ⊢
    cases k with
    | zero =>
      simp only [nth, Option.some.injEq] at h
      subst h
      simp [attrsAfterSteps]
    | succ k' =>
      simp only [nth] at h
      have := ih (attributes ++
        relevant.filter (fun p => p.2 = j &&
          !(has (determine_keys_priors j eqs attributes).1 p.1))) k' s h
      simpa [List.take_succ_cons, attrsAfterSteps] using this

theorem buildSteps_mem_shape {eqs : List (List (Nat × Nat))} {relevant : List (Nat × Nat)} :
    ∀ (order : List Nat) (attributes : List (Nat × Nat)) (s : JoinStep),
    s ∈ (buildSteps eqs relevant order attributes).1 →
    s.projection = s.keys ++ s.vals.map Prod.fst ∧ s.joinIdx ∈ order := by
  intro order
  induction order with
  | nil => intro attributes s h; simp [buildSteps] at h
  | cons j rest ih =>
    intro attributes s h
    simp only [buildSteps] at h
    rcases List.mem_cons.1 h with rfl | hmem
    · exact ⟨rfl, by simp⟩
    · rcases ih _ s hmem with ⟨h1, h2⟩
      exact ⟨h1, List.mem_cons_of_mem _ h2⟩

theorem attrsAfterSteps_length (attributes : List (Nat × Nat)) (steps : List JoinStep) :
    (attrsAfterSteps attributes steps).length =
      attributes.length + (steps.map (fun s => s.vals.length)).sum := by
  induction steps generalizing attributes with
  | nil => simp [attrsAfterSteps]
  | cons s rest ih =>
    simp only [attrsAfterSteps, List.foldl_cons] at ih ⊢
    rw [ih]
    simp
    omega

theorem attrsAfterSteps_app (attributes : List (Nat × Nat)) (l1 l2 : List JoinStep) :
    attrsAfterSteps attributes (l1 ++ l2) = attrsAfterSteps (attrsAfterSteps attributes l1) l2 := by
  simp [attrsAfterSteps, List.foldl_append]

theorem attrsAfterSteps_isPre (attributes : List (Nat × Nat)) (steps : List JoinStep) :
    attributes <+: attrsAfterSteps attributes steps := by
  induction steps generalizing attributes with
  | nil => simp [attrsAfterSteps]
  | cons s rest ih =>
    simp only [attrsAfterSteps, List.foldl_cons]
    exact (List.prefix_append attributes s.vals).trans (ih _)

theorem projectColl_mem {cols : List Nat} {r out : Coll} (h : projectColl cols r = some out) :
    ∀ p ∈ out, ∃ orig ∈ r, projectTuple cols orig.1 = some p.1 ∧ orig.2 = p.2 := by
  intro p hp
  rcases mapOpt_mem_rev h hp with ⟨orig, horig, hf⟩
  cases hproj : projectTuple cols orig.1 with
  | none => rw [hproj] at hf; simp at hf
  | some tu =>
    rw [hproj] at hf
    simp only [Option.pure_def, Option.bind_eq_bind, Option.some_bind, Option.some.injEq] at hf
    exact ⟨orig, horig, by rw [hproj, ← hf], by rw [← hf]⟩

theorem projectColl_len {cols : List Nat} {r out : Coll} (h : projectColl cols r = some out) :
    ∀ p ∈ out, p.1.length = cols.length := by
  intro p hp
  rcases projectColl_mem h p hp with ⟨orig, _, hproj, _⟩
  exact projectTuple_length hproj

theorem arrangementEntries_len {s : JoinStep} {visible : Coll}
    {arr : List (Tuple × Tuple × Int)} (h : arrangementEntries s visible = some arr) :
    ∀ e ∈ arr, e.2.1.length = s.projection.length := by
  intro e he
  rcases mapOpt_mem_rev h he with ⟨p, hp, hf⟩
  cases hproj : projectTuple s.projection p.1 with
  | none => rw [hproj] at hf; simp at hf
  | some proj =>
    rw [hproj] at hf
    simp only [Option.pure_def, Option.bind_eq_bind, Option.some_bind] at hf
    cases hkey : projectTuple s.keys proj with
    | none => rw [hkey] at hf; simp at hf
    | some key =>
      rw [hkey] at hf
      simp only [Option.some_bind, Option.some.injEq] at hf
      rw [← hf]
      exact projectTuple_length hproj

theorem propose_len {stream : Coll} {arr : List (Tuple × Tuple × Int)}
    {priors : List Nat} {out : Coll} {n m : Nat}
    (h : propose stream arr priors = some out)
    (hst : ∀ p ∈ stream, p.1.length = n)
    (harr : ∀ e ∈ arr, e.2.1.length = m) :
    ∀ p ∈ out, p.1.length = n + m := by
  intro p hp
  simp only [propose] at h
  cases hmo : mapOpt (fun p => do
      let key ← projectTuple priors p.1
      pure ((arr.filter (fun e => e.1 = key)).map
        (fun e => (p.1 ++ e.2.1, p.2 * e.2.2)))) stream with
  | none => rw [hmo] at h; simp at h
  | some lists =>
    rw [hmo] at h
    simp only [Option.map_some', Option.some.injEq] at h
    subst h
    rcases mem_flat.1 hp with ⟨sub, hsub, hpsub⟩
    rcases mapOpt_mem_rev hmo hsub with ⟨pfx, hpfx, hf⟩
    cases hkey : projectTuple priors pfx.1 with
    | none => rw [hkey] at hf; simp at hf
    | some key =>
      rw [hkey] at hf
      simp only [Option.pure_def, Option.bind_eq_bind, Option.some_bind,
        Option.some.injEq] at hf
      rw [← hf] at hpsub
      rcases List.mem_map.1 hpsub with ⟨e, he, hpe⟩
      rw [← hpe]
      simp only [List.length_append]
      rw [hst pfx hpfx, harr e (List.mem_of_mem_filter he)]

theorem applyStep_len {env : Env} {t index : Nat} {st out : Coll} {s : JoinStep} {n : Nat}
    (h : applyStep env t index (some st) s = some out)
    (hst : ∀ p ∈ st, p.1.length = n) :
    ∀ p ∈ out, p.1.length = n + s.projection.length := by
  simp only [applyStep, Option.pure_def, Option.bind_eq_bind, Option.some_bind] at h
  cases harr : arrangementEntries s
      (if s.joinIdx < index then accumUpTo env s.joinIdx t
       else accumBefore env s.joinIdx t) with
  | none => rw [harr] at h; simp at h
  | some arr =>
    rw [harr] at h
    simp only [Option.some_bind] at h
    exact propose_len h hst (arrangementEntries_len harr)

theorem applyStep_none {env : Env} {t index : Nat} {s : JoinStep} :
    applyStep env t index none s = none := rfl

theorem streamAfter_zero (q : MultiwayJoin) (env : Env) (t index : Nat) :
    streamAfter q env t index 0 = initialChanges q env t index := rfl

theorem streamAfter_succ {q : MultiwayJoin} {env : Env} {t index k : Nat} {s : JoinStep}
    (h : nth (stepsOf q index) k = some s) :
    streamAfter q env t index (k + 1) =
      applyStep env t index (streamAfter q env t index k) s := by
  simp only [streamAfter, nth_take_succ h, List.foldl_append, List.foldl_cons, List.foldl_nil]

theorem streamAfter_succ_none {q : MultiwayJoin} {env : Env} {t index k : Nat}
    (h : nth (stepsOf q index) k = none) :
    streamAfter q env t index (k + 1) = streamAfter q env t index k := by
  have hlen : (stepsOf q index).length ≤ k := by
    by_contra hlt
    have := nth_isSome_of_lt (l := stepsOf q index) (i := k) (by omega)
    rw [h] at this
    simp at this
  simp only [streamAfter, List.take_of_length_le hlen,
    List.take_of_length_le (hlen.trans (Nat.le_succ k))]

theorem streamAfter_len {q : MultiwayJoin} {env : Env} {t index : Nat} :
    ∀ (k : Nat) (rel : Coll), streamAfter q env t index k = some rel →
    ∀ p ∈ rel, p.1.length = (attributesInit q index).length +
      (((stepsOf q index).take k).map (fun s => s.projection.length)).sum := by
  intro k
  induction k with
  | zero =>
    intro rel h p hp
    simp only [List.take_zero, List.map_nil, List.sum_nil, Nat.add_zero]
    have h' : projectColl ((attributesInit q index).map Prod.fst) (env index t) =
        some rel := h
    have := projectColl_len h' p hp
    simpa using this
  | succ k' ih =>
    intro rel h p hp
    cases hs : nth (stepsOf q index) k' with
    | none =>
      rw [streamAfter_succ_none hs] at h
      have hlen : (stepsOf q index).length ≤ k' := by
        by_contra hlt
        have := nth_isSome_of_lt (l := stepsOf q index) (i := k') (by omega)
        rw [hs] at this
        simp at this
      rw [List.take_of_length_le (hlen.trans (Nat.le_succ k')), ← List.take_of_length_le hlen]
      exact ih rel h p hp
    | some s =>
      rw [streamAfter_succ hs] at h
      cases hst : streamAfter q env t index k' with
      | none => rw [hst, applyStep_none] at h; simp at h
      | some st =>
        rw [hst] at h
        rw [nth_take_succ hs, List.map_append, List.sum_append]
        simp only [List.map_cons, List.map_nil, List.sum_cons, List.sum_nil, Nat.add_zero]
        rw [← Nat.add_assoc]
        exact applyStep_len h (ih st hst) p hp

theorem attrsUpTo_len_le (q : MultiwayJoin) (index k : Nat) :
    (attrsUpTo q index k).length ≤ (attributesInit q index).length +
      (((stepsOf q index).take k).map (fun s => s.projection.length)).sum := by
  rw [attrsUpTo, attrsAfterSteps_length]
  have hmono : (((stepsOf q index).take k).map (fun s => s.vals.length)).sum ≤
      (((stepsOf q index).take k).map (fun s => s.projection.length)).sum := by
    apply List.sum_le_sum
    intro s hs
    have hmem : s ∈ stepsOf q index := List.take_subset _ _ hs
    have hshape := (buildSteps_mem_shape _ _ s hmem).1
    rw [hshape]
    simp
  omega

/-- Claim C9: every `prior` recorded for a join step is strictly below the
length of the attribute list accumulated before that step; that list only
grows at later steps; and on every tuple the branch stream may hold at that
step, the key-selector's indexing succeeds. -/
theorem c9_key_extraction_in_bounds (q : MultiwayJoin) (env : Env) (t index k : Nat)
    (s : JoinStep) (hs : nth (stepsOf q index) k = some s) :
    (∀ pr ∈ s.priors, pr < (attrsUpTo q index k).length) ∧
    (∀ k', k ≤ k' → attrsUpTo q index k <+: attrsUpTo q index k') ∧
    (∀ rel, streamAfter q env t index k = some rel →
      ∀ p ∈ rel, (projectTuple s.priors p.1).isSome) := by
  have hreplay := buildSteps_nth q.equalities (relevant_attributes q)
    ((plan_join_order index q.equalities).drop 1) (attributesInit q index) k s hs
  have hpriors : ∀ pr ∈ s.priors, pr < (attrsUpTo q index k).length := by
    intro pr hpr
    rw [hreplay.2.1] at hpr
    exact dkp_priors_bound pr hpr
  refine ⟨hpriors, ?_, ?_⟩
  · intro k' hk
    rw [attrsUpTo, attrsUpTo, ← Nat.add_sub_cancel' hk, List.take_add,
      attrsAfterSteps_app]
    exact attrsAfterSteps_isPre _ _
  · intro rel hrel p hp
    apply projectTuple_isSome
    intro i hi
    have h1 := hpriors i hi
    have h2 := attrsUpTo_len_le q index k
    have h3 := streamAfter_len k rel hrel p hp
    omega

/-- Witness for C9: the first join step of `pairJoin`'s branch for source 1. -/
theorem c9_key_extraction_in_bounds_witness :
    nth (stepsOf pairJoin 1) 0 = some ⟨0, [0], [0], [(1, 0)], [0, 1]⟩ ∧
    ((∀ pr ∈ (⟨0, [0], [0], [(1, 0)], [0, 1]⟩ : JoinStep).priors,
        pr < (attrsUpTo pairJoin 1 0).length) ∧
     (∀ k', 0 ≤ k' → attrsUpTo pairJoin 1 0 <+: attrsUpTo pairJoin 1 k') ∧
     (∀ rel, streamAfter pairJoin pairJoinEnv 0 1 0 = some rel →
        ∀ p ∈ rel, (projectTuple (⟨0, [0], [0], [(1, 0)], [0, 1]⟩ : JoinStep).priors p.1).isSome)) :=
  ⟨by decide, c9_key_extraction_in_bounds pairJoin pairJoinEnv 0 1 0 _ (by decide)⟩

/-! ## Disconnected sources are silently omitted (claim C10) -/

/-- Claim C10: a source index not connected to the seed through the equality
graph is omitted from the join order without any error, and the branch built
for that seed never joins it. -/
theorem c10_disconnected_silently_omitted (q : MultiwayJoin) (index j : Nat)
    (h : ¬ Reachable q.equalities index j) :
    j ∉ plan_join_order index q.equalities ∧
    ∀ s ∈ stepsOf q index, s.joinIdx ≠ j := by
  have hmem : j ∉ plan_join_order index q.equalities := fun hj =>
    h (mem_planJoinOrder_iff.1 hj)
  refine ⟨hmem, fun s hs hcontra => ?_⟩
  have horder := (buildSteps_mem_shape _ _ s hs).2
  have hjoin : s.joinIdx ∈ plan_join_order index q.equalities :=
    List.mem_of_mem_drop horder
  rw [hcontra] at hjoin
  exact hmem hjoin

/-- Witness for C10: source 3 of `badPlan` is disconnected from source 0. -/
theorem c10_disconnected_silently_omitted_witness :
    (¬ Reachable badPlan.equalities 0 3) ∧
    (3 ∉ plan_join_order 0 badPlan.equalities ∧
     ∀ s ∈ stepsOf badPlan 0, s.joinIdx ≠ 3) := by
  have hnr : ¬ Reachable badPlan.equalities 0 3 := fun h => by
    have hmem := mem_planJoinOrder_iff.2 h
    revert hmem
    decide
  exact ⟨hnr, c10_disconnected_silently_omitted badPlan 0 3 hnr⟩

/-! ## Error detection (claim C5) -/

/-- Whether some attribute reference occurs in two distinct equality lists
(the "malformed equality set" condition). -/
def sharedRefAcross : List (List (Nat × Nat)) → Bool
  | [] => false
  | c :: rest => c.any (fun x => rest.any (fun c' => has c' x)) || sharedRefAcross rest

/--
Counterexample to claim C5: `badPlan` has a malformed equality set ((0,0) in
two lists), a source (3) disconnected from the others, and a zero-key join
step (branch 1 joins relation 2 with no keys); yet the dataflow is built and
produces output with no error at all.
-/
theorem c5_counterexample :
    sharedRefAcross badPlan.equalities = true ∧
    has (plan_join_order 0 badPlan.equalities) 3 = false ∧
    (nth (stepsOf badPlan 1) 1).map JoinStep.keys = some [] ∧
    renderAt badPlan badPlanEnv 0 = some [([], 1), ([], 1)] := by decide

/-- Amended claim C5: of the four planning-time error kinds, only the
unreachable result attribute is detected — any branch whose `extract_map`
cannot resolve a result attribute makes the whole render fail (the
`expect("Output attribute not found!")` panic during construction). -/
theorem c5_unreachable_result_detected (q : MultiwayJoin) (env : Env) (t index : Nat)
    (hidx : index < q.sources) (hem : extractMapOf q index = none) :
    renderAt q env t = none := by
  have hbranch : branchAt q env t index = none := by
    simp only [branchAt, Option.pure_def, Option.bind_eq_bind]
    cases hf : (stepsOf q index).foldl (applyStep env t index)
        (initialChanges q env t index) with
    | none => rfl
    | some folded => simp [hem]
  simp only [renderAt]
  rw [mapOpt_eq_none_of_mem (List.mem_range.2 hidx) hbranch]
  rfl

/-- Witness for the amended C5: the spec's own scenario, whose branch 2 cannot
resolve result attribute R.a, makes the whole render fail. -/
theorem c5_unreachable_result_detected_witness :
    (2 < scenario3.sources ∧ extractMapOf scenario3 2 = none) ∧
    renderAt scenario3 scenario3Env 0 = none :=
  ⟨⟨by decide, by decide⟩,
   c5_unreachable_result_detected scenario3 scenario3Env 0 2 (by decide) (by decide)⟩

/-! ## Equivalence with the from-scratch join (claims C1 and C2) -/

/--
Claim C1 fails on the code: on the spec's own scenario (insert R=(1,2),
S=(2,3), T=(3,1) at timestamp 0) the from-scratch recomputation yields the
tuple (1,3) with multiplicity 1, but the rendered dataflow cannot even be
constructed: branch 2 consumes R.a as a join key without recording it in
`attributes`, so the output projection panics ("Output attribute not
found!") and no output is produced.
-/
theorem c1_scenario_render_panics :
    maintainedAt scenario3 scenario3Env 0 = none ∧
    fromScratch scenario3 scenario3Env 0 = some [([1, 3], 1)] := by decide

/--
Claim C2 fails on the code: in `pairJoin`, R=(1,2) and S=(1,3) placed at the
same timestamp match, and the ground truth gives the result tuple (2,3) one
unit of multiplicity; the rendered dataflow instead contributes zero units to
(2,3) and one unit to the wrong tuple (1,3), because `propose` extends each
prefix with the full arranged tuple (key columns included) while `attributes`
records only `vals`, misaligning every later position lookup.
-/
theorem c2_coincidence_miscounted :
    renderAt pairJoin pairJoinEnv 0 = some [([1, 3], 1)] ∧
    (renderAt pairJoin pairJoinEnv 0).map (fun r => relCount r [2, 3]) = some 0 ∧
    (fromScratch pairJoin pairJoinEnv 0).map (fun r => relCount r [2, 3]) = some 1 := by
  decide

/-! ## The step arrangement's key (claim C6) -/

/-- Modelled from the spec (claim C6's words): the key the arrangement is
claimed to be partitioned by — the values of the relation's key columns in the
relation's own tuple. -/
def specKeyColumns (keys : List Nat) (tu : Tuple) : Option Tuple :=
  projectTuple keys tu

/--
Claim C6 fails on the code: in the scenario's branch for S, relation R is
joined with `keys = [1]` and `projection = [1, 0]`; on R's tuple (1,2) the
arrangement built by the code is keyed by `[1]` (it indexes the *projected*
tuple `[2, 1]` at position 1, i.e. column R.a), whereas the key formed from
R's key column (attribute 1, R.b) is `[2]`.  The `vals` part of the claim does
hold: `vals = [(0, 0)]`, the relevant attributes of R not chosen as keys.
-/
theorem c6_arrangement_key_mismatch :
    nth (stepsOf scenario3 1) 0 = some ⟨0, [1], [0], [(0, 0)], [1, 0]⟩ ∧
    arrangementEntries ⟨0, [1], [0], [(0, 0)], [1, 0]⟩ [([1, 2], 1)] =
      some [([1], [2, 1], 1)] ∧
    specKeyColumns [1] [1, 2] = some [2] ∧
    ([1] : Tuple) ≠ [2] := by decide

/-! ## The unkeyed arrangement cache (claim C7) -/

/-- Modelled from the spec: the unkeyed side of the arrangement cache
(`TraceManager`), keyed by plan value; the plans arranged unkeyed in `render`
are the source sub-plans, identified here by their index. -/
abbrev UnkeyedCache := List (Nat × Coll)

/-- Modelled from the spec: cache lookup by structural equality of the plan. -/
def get_unkeyed (cache : UnkeyedCache) (plan : Nat) : Option Coll :=
  (cache.find? (fun e => e.1 == plan)).map Prod.snd

/-- Modelled from the spec: installing an arrangement in the cache. -/
def set_unkeyed (cache : UnkeyedCache) (plan : Nat) (arr : Coll) : UnkeyedCache :=
  cache ++ [(plan, arr)]

/-- Modelled from the spec: `arrange_by_self` indexes a collection by the whole
tuple; its contents are the tuples themselves with their multiplicities. -/
def arrange_by_self (r : Coll) : Coll := r

/-- The ensure-then-fetch of `render` (lines 92-101): obtain the unkeyed
arrangement of a source plan from the cache, building and installing it first
when absent. -/
def ensureUnkeyed (cache : UnkeyedCache) (plan : Nat) (rendered : Coll) :
    UnkeyedCache × Coll :=
  match get_unkeyed cache plan with
  | some arr => (cache, arr)
  | none => (set_unkeyed cache plan (arrange_by_self rendered),
             arrange_by_self rendered)

/-- Modelled from the spec (claim C7's words): the index the claim says is
cached — the self-arrangement of the source's rendered output *projected* to
its retained attributes. -/
def claimedUnkeyedIndex (q : MultiwayJoin) (index : Nat) (rendered : Coll) :
    Option Coll :=
  (projectColl ((attributesInit q index).map Prod.fst) rendered).map arrange_by_self

/-- A single-source plan that keeps only the first of its source's two columns. -/
def projOne : MultiwayJoin :=
  { results := [(0, 0)], sources := 1, equalities := [] }

/-- The single source holds the tuple (7,8). -/
def projOneEnv : Env := fun i t => if i = 0 && t = 0 then [([7, 8], 1)] else []

/--
Counterexample to claim C7: the arrangement installed in the cache holds the
source's *unprojected* tuples — for `projOne` it contains (7,8), not the
claimed self-arrangement of the projected output, which would contain (7).
The projection happens on the change stream after import (the rendered output
is indeed `[7]`).
-/
theorem c7_cached_index_not_projected :
    (ensureUnkeyed [] 0 [([7, 8], 1)]).2 = [([7, 8], 1)] ∧
    claimedUnkeyedIndex projOne 0 [([7, 8], 1)] = some [([7], 1)] ∧
    some (ensureUnkeyed [] 0 [([7, 8], 1)]).2 ≠ claimedUnkeyedIndex projOne 0 [([7, 8], 1)] ∧
    renderAt projOne projOneEnv 0 = some [([7], 1)] := by decide

theorem find?_append_none {l1 l2 : List α} {p : α → Bool}
    (h : l1.find? p = none) : (l1 ++ l2).find? p = l2.find? p := by
  induction l1 with
  | nil => simp
  | cons a t ih =>
    rw [List.find?_cons] at h
    cases hpa : p a with
    | true => rw [hpa] at h; simp at h
    | false =>
      rw [hpa] at h
      rw [List.cons_append, List.find?_cons, hpa]
      exact ih h

/--
Amended claim C7: the branch obtains from the cache — building and installing
only when absent, and sharing the installed entry with every later request —
a self-arranged index over the source's *unprojected* rendered output keyed by
the full tuple; the projection to the source's retained attributes is applied
to the imported change stream, so every element of that stream is the
retained-attribute projection of a source change.
-/
theorem c7_cache_and_stream_discipline :
    (∀ (cache : UnkeyedCache) (plan : Nat) (r a : Coll),
      get_unkeyed cache plan = some a → ensureUnkeyed cache plan r = (cache, a)) ∧
    (∀ (cache : UnkeyedCache) (plan : Nat) (r : Coll),
      get_unkeyed cache plan = none →
      ensureUnkeyed cache plan r =
        (set_unkeyed cache plan (arrange_by_self r), arrange_by_self r)) ∧
    (∀ (cache : UnkeyedCache) (plan : Nat) (r r' : Coll),
      ensureUnkeyed (ensureUnkeyed cache plan r).1 plan r' = ensureUnkeyed cache plan r) ∧
    (∀ (q : MultiwayJoin) (env : Env) (t index : Nat) (rel : Coll),
      initialChanges q env t index = some rel →
      ∀ p ∈ rel, ∃ orig ∈ env index t,
        projectTuple ((attributesInit q index).map Prod.fst) orig.1 = some p.1 ∧
        orig.2 = p.2) := by
  refine ⟨?_, ?_, ?_, ?_⟩
  · intro cache plan r a h
    simp [ensureUnkeyed, h]
  · intro cache plan r h
    simp [ensureUnkeyed, h]
  · intro cache plan r r'
    cases hget : get_unkeyed cache plan with
    | some a => simp [ensureUnkeyed, hget]
    | none =>
      have hfind : cache.find? (fun e => e.1 == plan) = none := by
        simp only [get_unkeyed] at hget
        cases hf : cache.find? (fun e => e.1 == plan) with
        | none => rfl
        | some e => rw [hf] at hget; simp at hget
      have hget' : get_unkeyed (set_unkeyed cache plan (arrange_by_self r)) plan =
          some (arrange_by_self r) := by
        simp only [get_unkeyed, set_unkeyed, find?_append_none hfind]
        simp [List.find?_cons]
      simp [ensureUnkeyed, hget, hget']
  · intro q env t index rel h p hp
    exact projectColl_mem h p hp

/-- Witness for the amended C7: an empty cache installs and returns the
self-arrangement of the rendered source. -/
theorem c7_cache_and_stream_discipline_witness :
    get_unkeyed [] 0 = none ∧
    ensureUnkeyed [] 0 [([7, 8], 1)] =
      (set_unkeyed [] 0 (arrange_by_self [([7, 8], 1)]), arrange_by_self [([7, 8], 1)]) :=
  ⟨rfl, c7_cache_and_stream_discipline.2.1 [] 0 [([7, 8], 1)] rfl⟩
